import Mathlib

/-!
Shallow embedding of the data pipeline of `src/app.py` (UV Index Analyzer and
TrafficSense dashboard).  Text is modelled as `List Char`, numeric cell values
as `ℚ` (the idealisation of Python floats licensed by the round-trip clause
"up to floating-point representation"), calendar dates as explicit
year/month/day records with Gregorian arithmetic, and the pandas scalar that
may be NaN as the inductive `PVal`.  Fallible steps return `Option`/`Except`.
-/

/-! ## Characters and digits -/

/-- The decimal digit character for `n` (only used with `n < 10`; the
modulus keeps the code point valid for larger arguments). -/
def digitChar (n : ℕ) : Char := Char.ofNat (48 + n % 10)

/-- Numeric value of a decimal digit character, `none` on other characters;
the code points 48..57 are the ASCII digits. -/
def digitVal (c : Char) : Option ℕ :=
  if 48 ≤ c.toNat && c.toNat ≤ 57 then some (c.toNat - 48) else none

/-- Is this character a decimal digit. -/
def isDigitC (c : Char) : Bool := (digitVal c).isSome

/-- `digitVal` with default 0, used to accumulate values of digit strings. -/
def dval (c : Char) : ℕ := (digitVal c).getD 0

/-- Numeric value of a digit string, most significant digit first. -/
def valOfDigits : List Char → ℕ
  | [] => 0
  | c :: cs => dval c * 10 ^ cs.length + valOfDigits cs

/-- All characters are decimal digits. -/
def allDigits (cs : List Char) : Bool := cs.all isDigitC

/-- Decimal notation accumulator, structurally recursive on the fuel so that
it evaluates inside the kernel; the fuel is always at least `n + 1`. -/
def printNatAux : ℕ → ℕ → List Char
  | _, 0 => []
  | n, fuel + 1 =>
    if n < 10 then [digitChar n]
    else printNatAux (n / 10) fuel ++ [digitChar (n % 10)]

/-- Decimal notation for a natural number, no padding, `0` printed as `"0"`. -/
def printNat (n : ℕ) : List Char := printNatAux n (n + 1)

/-- Decimal notation for `n`, zero-padded on the left to at least `k` digits. -/
def printPad (k n : ℕ) : List Char :=
  List.replicate (k - (printNat n).length) '0' ++ printNat n

/-- Split a character list at every occurrence of the separator `c`,
mirroring the Python `str.split` convention: the number of pieces is one more
than the number of separators, so the empty list yields `[[]]`. -/
def splitOnChar (c : Char) : List Char → List (List Char)
  | [] => [[]]
  | x :: xs =>
    if x = c then [] :: splitOnChar c xs
    else
      match splitOnChar c xs with
      | [] => [[x]]
      | l :: ls => (x :: l) :: ls

/-- Whitespace characters stripped by Python `float` around a numeric token. -/
def isSpaceC (c : Char) : Bool :=
  c = ' ' || c = '\t' || c = '\n' || c = '\r'

/-- Strip leading and trailing whitespace, as Python `float` does before
converting a token. -/
def trimC (cs : List Char) : List Char :=
  ((cs.dropWhile isSpaceC).reverse.dropWhile isSpaceC).reverse

/-! ## Calendar dates

`app.py` line 60 builds `pd.date_range(start="2023-10-01", periods=n,
freq="D")`: `n` consecutive calendar days starting at the anchor. -/

/-- A Gregorian calendar date. -/
structure Date where
  y : ℕ
  m : ℕ
  d : ℕ
deriving DecidableEq

/-- Gregorian leap-year rule, as used by the datetime library underlying
`pd.date_range`. -/
def isLeapYear (y : ℕ) : Bool :=
  (y % 4 = 0 && y % 100 ≠ 0) || y % 400 = 0

/-- Number of days in month `m` of year `y` (months outside 1..12 never arise
from valid dates; the catch-all returns 31). -/
def daysInMonth (y m : ℕ) : ℕ :=
  if m = 2 then (if isLeapYear y then 29 else 28)
  else if m = 4 || m = 6 || m = 9 || m = 11 then 30
  else 31

/-- The calendar day after `dt` (daily frequency step of `pd.date_range`). -/
def nextDay (dt : Date) : Date :=
  if dt.d < daysInMonth dt.y dt.m then ⟨dt.y, dt.m, dt.d + 1⟩
  else if dt.m < 12 then ⟨dt.y, dt.m + 1, 1⟩
  else ⟨dt.y + 1, 1, 1⟩

/-- The date `i` days after `dt`. -/
def dateAfter (i : ℕ) (dt : Date) : Date := nextDay^[i] dt

/-- `pd.date_range(start, periods := n, freq := "D")`: `n` consecutive
calendar days starting at `start` (app.py line 60). -/
def dateRange (start : Date) (n : ℕ) : List Date :=
  (List.range n).map (fun i => dateAfter i start)

/-- The fixed anchor date `"2023-10-01"` of app.py line 60. -/
def anchorDate : Date := ⟨2023, 10, 1⟩

/-- A well-formed calendar date: month in 1..12, day in 1..month length. -/
def ValidDate (dt : Date) : Prop :=
  1 ≤ dt.m ∧ dt.m ≤ 12 ∧ 1 ≤ dt.d ∧ dt.d ≤ daysInMonth dt.y dt.m

/-- Strict chronological order on dates (lexicographic on year, month, day). -/
def dateLt (a b : Date) : Prop :=
  a.y < b.y ∨ (a.y = b.y ∧ (a.m < b.m ∨ (a.m = b.m ∧ a.d < b.d)))

instance : DecidablePred ValidDate := fun _ => by
  unfold ValidDate; infer_instance

instance (a b : Date) : Decidable (dateLt a b) := by
  unfold dateLt; infer_instance

/-- ISO calendar-date text, `YYYY-MM-DD` zero-padded, the form in which a
midnight pandas datetime is rendered by `to_csv`. -/
def printDate (dt : Date) : List Char :=
  printPad 4 dt.y ++ '-' :: (printPad 2 dt.m ++ '-' :: printPad 2 dt.d)

/-- `pd.to_datetime` on one cell, restricted to the dash-separated numeric
form the exporter produces. -/
def parseDate (cs : List Char) : Option Date :=
  match splitOnChar '-' cs with
  | [a, b, c] =>
    if (!a.isEmpty && allDigits a) && (!b.isEmpty && allDigits b)
        && (!c.isEmpty && allDigits c) then
      some ⟨valOfDigits a, valOfDigits b, valOfDigits c⟩
    else none
  | _ => none

/-! ## Numeric tokens

`app.py` line 59 converts each comma-separated token with Python `float`.
The model covers the plain decimal forms `ddd`, `ddd.ddd`, `.ddd`, `ddd.`
with an optional sign and surrounding whitespace; the exotic forms `float`
also accepts (exponents, `inf`, `nan`, underscores) are outside the model.
Values are exact rationals, the idealisation of the IEEE doubles of the
source. -/

/-- Parse an unsigned decimal token into scaled-integer form: digits with at
most one decimal point and at least one digit overall.  The token `w.f`
denotes the rational `(w * 10 ^ |f| + f) / 10 ^ |f|`; the pair returned is
the numerator and the power-of-ten exponent of that denominator. -/
def parseUnsignedParts (cs : List Char) : Option (ℕ × ℕ) :=
  match splitOnChar '.' cs with
  | [w] =>
    if !w.isEmpty && allDigits w then some (valOfDigits w, 0) else none
  | [w, f] =>
    if (!w.isEmpty || !f.isEmpty) && allDigits w && allDigits f then
      some (valOfDigits w * 10 ^ f.length + valOfDigits f, f.length)
    else none
  | _ => none

/-- Python `float(token)`: strip whitespace, optional sign, decimal digits.
The result is the exact rational value of the decimal literal. -/
def parseVal (cs : List Char) : Option ℚ :=
  match trimC cs with
  | '-' :: r => (parseUnsignedParts r).map (fun p => mkRat (-(p.1 : ℤ)) (10 ^ p.2))
  | '+' :: r => (parseUnsignedParts r).map (fun p => mkRat (p.1 : ℤ) (10 ^ p.2))
  | r => (parseUnsignedParts r).map (fun p => mkRat (p.1 : ℤ) (10 ^ p.2))

/-- The exponent used to print `q` as a decimal: the least `k ≤ q.den` with
`q.den ∣ 10 ^ k`, when one exists (it always does for values that came from
parsing a decimal token). -/
def decExp (q : ℚ) : ℕ :=
  (((List.range (q.den + 1)).find? (fun k => decide (q.den ∣ 10 ^ k))).getD 0)

/-- Decimal notation of a rational cell value as `to_csv` renders a float:
optional minus sign, integer part, decimal point, fractional digits (a whole
number is rendered with a trailing `.0`, e.g. `3.0`).  Exact whenever the
denominator of `q` divides a power of ten. -/
def printVal (q : ℚ) : List Char :=
  let e := decExp q
  let n := q.num.natAbs * 10 ^ e / q.den
  let sign : List Char := if q.num < 0 then ['-'] else []
  if e = 0 then sign ++ printNat n ++ ['.', '0']
  else sign ++ printNat (n / 10 ^ e) ++ '.' :: printPad e (n % 10 ^ e)

/-! ## The series table -/

/-- One row of the series table: a calendar date and a numeric value
(columns `"Date"` and `"UV Index"` of the DataFrame built at line 61). -/
structure Point where
  date : Date
  value : ℚ
deriving DecidableEq

/-- The normalized time series: an ordered sequence of rows. -/
abbrev SeriesTable := List Point

/-- The list comprehension of line 59, `[float(x) for x in uv_data.split(",")]`:
all tokens must convert, a single failure aborts with an error. -/
def parseAll : List (List Char) → Option (List ℚ)
  | [] => some []
  | tok :: rest =>
    match parseVal tok, parseAll rest with
    | some v, some vs => some (v :: vs)
    | _, _ => none

/-- Lines 55-63 of app.py: manual input processing.  The guard `if uv_data:`
skips empty input entirely (no table is produced); otherwise every
comma-separated token is converted with `float` and the values are paired
with consecutive dates from the anchor.  `none` models both the skipped
guard and the `st.error` path on a conversion failure. -/
def parseManual (cs : List Char) : Option SeriesTable :=
  if cs.isEmpty then none
  else
    match parseAll (splitOnChar ',' cs) with
    | none => none
    | some vs =>
      some (List.zipWith (fun dt v => Point.mk dt v) (dateRange anchorDate vs.length) vs)

/-! ## Summary statistics (lines 86-90)

pandas `mean`, `max` and `min` over the value column return NaN on an empty
column; `PVal` is the type of such a possibly-NaN scalar. -/

/-- A pandas scalar: a rational number or NaN. -/
inductive PVal where
  | nan : PVal
  | val (q : ℚ) : PVal
deriving DecidableEq

/-- Sum of the value column. -/
def sumQ (t : SeriesTable) : ℚ := (t.map Point.value).sum

/-- Arithmetic mean of the value column of a non-empty table. -/
def meanQ (t : SeriesTable) : ℚ := sumQ t / (t.length : ℚ)

/-- Maximum of the value column of a non-empty table (0 on the empty table,
where it is never used). -/
def maxQ : SeriesTable → ℚ
  | [] => 0
  | p :: r => r.foldl (fun a x => max a x.value) p.value

/-- Minimum of the value column of a non-empty table (0 on the empty table,
where it is never used). -/
def minQ : SeriesTable → ℚ
  | [] => 0
  | p :: r => r.foldl (fun a x => min a x.value) p.value

/-- The summary statistics shown at lines 86-90. -/
structure SummaryStats where
  mean : PVal
  max : PVal
  min : PVal
deriving DecidableEq

/-- `summarize`: pandas `mean`/`max`/`min` over the value column.  On a table
with zero rows each aggregate is NaN, exactly as pandas computes it; the
code has no empty-table check. -/
def summarize (t : SeriesTable) : SummaryStats :=
  if t.isEmpty then ⟨PVal.nan, PVal.nan, PVal.nan⟩
  else ⟨PVal.val (meanQ t), PVal.val (maxQ t), PVal.val (minQ t)⟩

/-! ## Severity classification (lines 113-118) -/

/-- The three insight levels of lines 113-118. -/
inductive Severity where
  | High
  | Moderate
  | Low
deriving DecidableEq

/-- Comparison of a possibly-NaN pandas scalar against a threshold; any
comparison against NaN is false, as in IEEE arithmetic. -/
def pvGtB (v : PVal) (q : ℚ) : Bool :=
  match v with
  | PVal.nan => false
  | PVal.val x => decide (q < x)

/-- `classifySeverity`: the `if max > 10 / elif max > 7 / else` chain of
lines 113-118, a pure function of the maximum. -/
def classifySeverity (mx : PVal) : Severity :=
  if pvGtB mx 10 then Severity.High
  else if pvGtB mx 7 then Severity.Moderate
  else Severity.Low

/-! ## Range filter (lines 122-129) -/

/-- `filterByRange`: line 129,
`data[(data["UV Index"] >= min_uv) & (data["UV Index"] <= max_uv)]` —
the rows whose value lies in the inclusive range, in their original order. -/
def filterByRange (t : SeriesTable) (low high : ℚ) : SeriesTable :=
  t.filter (fun p => decide (low ≤ p.value) && decide (p.value ≤ high))

/-- Python `int()` on a rational: truncation toward zero (floor of
nonnegative values, ceiling of negative ones). -/
def truncQ (q : ℚ) : ℤ :=
  if 0 ≤ q then q.floor else -((-q).floor)

/-- The default slider selection of lines 122-127: bounds
`int(data["UV Index"].min())` and `int(data["UV Index"].max())`, and the
filtered table those defaults produce at line 129. -/
def filteredDefault (t : SeriesTable) : SeriesTable :=
  filterByRange t (truncQ (minQ t) : ℚ) (truncQ (maxQ t) : ℚ)

/-! ## CSV export and upload (lines 64-74 and 135-142)

The delimited text is a character sequence; rows are separated by a newline
and fields by a comma, with a header row first. -/

/-- The `"Date"` column name. -/
def dateColName : List Char := "Date".toList

/-- The `"UV Index"` column name. -/
def uvColName : List Char := "UV Index".toList

/-- One data row of the exported CSV: date, comma, value. -/
def rowLine (p : Point) : List Char := printDate p.date ++ ',' :: printVal p.value

/-- The header row `"Date,UV Index"` that `to_csv(index=False)` emits. -/
def headerLine : List Char := "Date,UV Index".toList

/-- Join lines with a terminating newline after each, as `to_csv` does. -/
def joinLines (ls : List (List Char)) : List Char :=
  ls.foldr (fun l acc => l ++ '\n' :: acc) []

/-- `toDelimitedText`: line 136, `filtered_data.to_csv(index=False)` — a
header row followed by one comma-separated row per point, no index column. -/
def toDelimitedText (t : SeriesTable) : List Char :=
  joinLines (headerLine :: t.map rowLine)

/-- The error taxonomy of the upload path: missing required column, an
unparseable cell, or a file with no rows at all (pandas `EmptyDataError`). -/
inductive AppErr where
  | schemaErr
  | parseErr
  | emptyData
deriving DecidableEq

/-- `ensureColumns`: the check of line 69,
`"Date" not in data.columns or "UV Index" not in data.columns`, succeeds iff
every required column name is present. -/
def ensureColumns (cols required : List (List Char)) : Bool :=
  required.all (fun c => cols.contains c)

/-- Parse one data row: split on commas, take the Date and UV Index fields by
their column positions, convert them. -/
def parseRow (di ui : ℕ) (row : List Char) : Option Point :=
  match (splitOnChar ',' row).get? di, (splitOnChar ',' row).get? ui with
  | some fd, some fu =>
    match parseDate fd, parseVal fu with
    | some dt, some v => some (Point.mk dt v)
    | _, _ => none
  | _, _ => none

/-- Parse every data row; a single bad row aborts. -/
def parseRows (di ui : ℕ) : List (List Char) → Option (List Point)
  | [] => some []
  | row :: rest =>
    match parseRow di ui row, parseRows di ui rest with
    | some p, some ps => some (p :: ps)
    | _, _ => none

/-- The non-blank lines of the file (`read_csv` skips blank lines). -/
def csvLines (cs : List Char) : List (List Char) :=
  (splitOnChar '\n' cs).filter (fun l => !l.isEmpty)

/-- The header columns of the file, when it has any line at all. -/
def headerCols (cs : List Char) : Option (List (List Char)) :=
  match csvLines cs with
  | [] => none
  | h :: _ => some (splitOnChar ',' h)

/-- `parseFile`: lines 68-72 of app.py.  `pd.read_csv` (an empty file raises
`EmptyDataError`), then the required-column check of line 69 (missing column:
error and `st.stop`), then date conversion of the Date column and numeric
cells; any unconvertible cell is the `except` path. -/
def parseFile (cs : List Char) : Except AppErr SeriesTable :=
  match csvLines cs with
  | [] => Except.error AppErr.emptyData
  | header :: rows =>
    let cols := splitOnChar ',' header
    if ensureColumns cols [dateColName, uvColName] then
      match parseRows (cols.findIdx (fun c => c == dateColName))
          (cols.findIdx (fun c => c == uvColName)) rows with
      | some ps => Except.ok ps
      | none => Except.error AppErr.parseErr
    else Except.error AppErr.schemaErr

/-- Everything the dashboard derives from a table once one exists (lines
77-131): summary statistics, the severity insight, and the filtered table
under the default slider selection. -/
def dashboardOutputs (t : SeriesTable) : SummaryStats × Severity × SeriesTable :=
  (summarize t, classifySeverity (summarize t).max, filteredDefault t)

/-- The upload pipeline end to end: parse and validate the file, and when
that fails produce nothing at all — no statistics, no charts, no filtered
output (`st.stop` / the error path leave `data` undefined). -/
def uploadOutputs (cs : List Char) : Option (SummaryStats × Severity × SeriesTable) :=
  match parseFile cs with
  | Except.ok t => some (dashboardOutputs t)
  | Except.error _ => none

/-! ## External data fetcher (lines 197-204 and 224-232)

`requests.get` responses are modelled by their status code and parsed JSON
body; the fetch logic branches solely on `status_code == 200`. -/

/-- A parsed JSON value (the fragment the dashboard touches). -/
inductive Json where
  | num (q : ℚ) : Json
  | str (s : List Char) : Json
  | obj (fields : List (List Char × Json)) : Json

/-- Look up a key in a JSON object, `none` on other shapes or missing keys
(a missing key is a `KeyError` in the source). -/
def jsonGet (j : Json) (key : List Char) : Option Json :=
  match j with
  | Json.obj fields =>
    match fields.find? (fun kv => kv.1 == key) with
    | some kv => some kv.2
    | none => none
  | _ => none

/-- Follow a path of keys through nested JSON objects. -/
def jsonPath (j : Json) : List (List Char) → Option Json
  | [] => some j
  | k :: ks =>
    match jsonGet j k with
    | some v => jsonPath v ks
    | none => none

/-- An HTTP response: status code and parsed JSON body. -/
structure HttpResponse where
  status : ℕ
  body : Json

/-- Outcome of one fetch-and-display cycle: the success branch with the
extracted field, the error branch keyed by the non-200 status, or an
uncaught exception (`KeyError` on a 200 response whose body lacks the
field). -/
inductive FetchOutcome where
  | ok (v : Json) : FetchOutcome
  | fetchError (status : ℕ) : FetchOutcome
  | crash : FetchOutcome

/-- `fetchScalarField`: lines 199-204 (and identically 225-232).  The branch
is solely on `response.status_code == 200`; on 200 the nested field is
extracted and displayed (a missing key is an uncaught `KeyError`), otherwise
the sidebar shows the fetch-failure message. -/
def fetchScalarField (resp : HttpResponse) (path : List (List Char)) : FetchOutcome :=
  if resp.status = 200 then
    match jsonPath resp.body path with
    | some v => FetchOutcome.ok v
    | none => FetchOutcome.crash
  else FetchOutcome.fetchError resp.status

/-- The field path `['current']['uv_index']` of line 202. -/
def uvFieldPath : List (List Char) := ["current".toList, "uv_index".toList]

/-- The sample manual input of app.py line 48. -/
def sampleInput : List Char := "3, 5, 7, 9, 11, 8, 6, 4".toList

/-- The table the sample input denotes: values 3..4 on the eight days from
the anchor. -/
def sampleTable : SeriesTable :=
  List.zipWith (fun dt v => Point.mk dt v) (dateRange anchorDate 8)
    [3, 5, 7, 9, 11, 8, 6, 4]

/-! ## Lemmas: digits and decimal notation -/

theorem digitVal_digitChar {n : ℕ} (h : n < 10) : digitVal (digitChar n) = some n := by
  interval_cases n <;> decide

theorem isDigitC_digitChar {n : ℕ} (h : n < 10) : isDigitC (digitChar n) = true := by
  rw [isDigitC, digitVal_digitChar h]
  rfl

theorem dval_digitChar {n : ℕ} (h : n < 10) : dval (digitChar n) = n := by
  unfold dval; rw [digitVal_digitChar h]; rfl

theorem valOfDigits_append (xs ys : List Char) :
    valOfDigits (xs ++ ys) = valOfDigits xs * 10 ^ ys.length + valOfDigits ys := by
  induction xs with
  | nil => simp [valOfDigits]
  | cons c cs ih =>
    simp only [List.cons_append, valOfDigits, List.append_eq, ih,
      List.length_append]
    ring

theorem valOfDigits_replicate_zero (j : ℕ) :
    valOfDigits (List.replicate j '0') = 0 := by
  induction j with
  | zero => rfl
  | succ k ih => simp [List.replicate_succ, valOfDigits, ih, dval, digitVal]

theorem allDigits_append {xs ys : List Char} :
    allDigits (xs ++ ys) = (allDigits xs && allDigits ys) := by
  simp [allDigits, List.all_append]

theorem allDigits_replicate_zero (j : ℕ) :
    allDigits (List.replicate j '0') = true := by
  rw [allDigits, List.all_eq_true]
  intro c hc
  rw [List.eq_of_mem_replicate hc]; decide

theorem not_mem_of_allDigits {l : List Char} {c : Char}
    (hl : allDigits l = true) (hc : isDigitC c = false) : c ∉ l := by
  intro hmem
  have := List.all_eq_true.mp hl c hmem
  rw [hc] at this
  exact Bool.false_ne_true this

/-- Combined correctness of the fueled decimal printer: with enough fuel the
output is a non-empty digit string denoting `n`. -/
theorem printNatAux_spec :
    ∀ (fuel n : ℕ), n < fuel →
      allDigits (printNatAux n fuel) = true ∧ printNatAux n fuel ≠ [] ∧
      valOfDigits (printNatAux n fuel) = n := by
  intro fuel
  induction fuel with
  | zero => intro n h; omega
  | succ f ih =>
    intro n h
    by_cases h10 : n < 10
    · refine ⟨?_, ?_, ?_⟩
      · simp [printNatAux, h10, allDigits, isDigitC_digitChar h10]
      · simp [printNatAux, h10]
      · simp [printNatAux, h10, valOfDigits, dval_digitChar h10]
    · have hdiv : n / 10 < f := by
        have h1 : n / 10 < n := Nat.div_lt_self (by omega) (by omega)
        omega
      obtain ⟨ha, hne, hv⟩ := ih (n / 10) hdiv
      have hrw : printNatAux n (f + 1)
          = printNatAux (n / 10) f ++ [digitChar (n % 10)] := by
        simp [printNatAux, h10]
      refine ⟨?_, ?_, ?_⟩
      · rw [hrw, allDigits_append, ha]
        simp [allDigits, List.all_cons,
          isDigitC_digitChar (Nat.mod_lt n (by omega : 0 < 10))]
      · rw [hrw]
        simp
      · have hmod : n % 10 < 10 := Nat.mod_lt _ (by omega)
        rw [hrw, valOfDigits_append, hv]
        simp only [valOfDigits, dval_digitChar hmod, List.length_cons,
          List.length_nil, pow_zero, pow_one, mul_one, add_zero]
        omega

theorem allDigits_printNat (n : ℕ) : allDigits (printNat n) = true :=
  (printNatAux_spec (n + 1) n (by omega)).1

theorem printNat_ne_nil (n : ℕ) : printNat n ≠ [] :=
  (printNatAux_spec (n + 1) n (by omega)).2.1

theorem valOfDigits_printNat (n : ℕ) : valOfDigits (printNat n) = n :=
  (printNatAux_spec (n + 1) n (by omega)).2.2

/-- With enough fuel, a number below `10 ^ k` prints in at most `k` digits. -/
theorem printNatAux_length :
    ∀ (fuel n k : ℕ), n < fuel → 1 ≤ k → n < 10 ^ k →
      (printNatAux n fuel).length ≤ k := by
  intro fuel
  induction fuel with
  | zero => intro n k h; omega
  | succ f ih =>
    intro n k h hk hnk
    by_cases h10 : n < 10
    · simpa [printNatAux, h10] using hk
    · have hdiv : n / 10 < f := by
        have h1 : n / 10 < n := Nat.div_lt_self (by omega) (by omega)
        omega
      have hk2 : 2 ≤ k := by
        by_contra hlt
        have : k = 1 := by omega
        subst this
        simp at hnk
        omega
      have hq : n / 10 < 10 ^ (k - 1) := by
        have : n < 10 ^ (k - 1) * 10 := by
          have : 10 ^ (k - 1) * 10 = 10 ^ k := by
            rw [← pow_succ]
            congr 1
            omega
          omega
        omega
      have := ih (n / 10) (k - 1) hdiv (by omega) hq
      simp only [printNatAux, if_neg h10, List.length_append,
        List.length_cons, List.length_nil]
      omega

theorem printNat_length {n k : ℕ} (hk : 1 ≤ k) (h : n < 10 ^ k) :
    (printNat n).length ≤ k :=
  printNatAux_length (n + 1) n k (by omega) hk h

theorem allDigits_printPad (k n : ℕ) : allDigits (printPad k n) = true := by
  simp [printPad, allDigits_append, allDigits_replicate_zero, allDigits_printNat]

theorem printPad_ne_nil (k n : ℕ) : printPad k n ≠ [] := by
  simp only [printPad]
  intro h
  rcases List.append_eq_nil.mp h with ⟨_, h2⟩
  exact printNat_ne_nil n h2

theorem valOfDigits_printPad (k n : ℕ) : valOfDigits (printPad k n) = n := by
  simp [printPad, valOfDigits_append, valOfDigits_replicate_zero,
    valOfDigits_printNat]

theorem printPad_length {k n : ℕ} (hk : 1 ≤ k) (h : n < 10 ^ k) :
    (printPad k n).length = k := by
  have hle := printNat_length hk h
  simp only [printPad, List.length_append, List.length_replicate]
  omega

/-! ## Lemmas: splitting and trimming -/

theorem splitOnChar_ne_nil (c : Char) (xs : List Char) : splitOnChar c xs ≠ [] := by
  induction xs with
  | nil => simp [splitOnChar]
  | cons x xs ih =>
    by_cases hx : x = c
    · simp [splitOnChar, hx]
    · simp only [splitOnChar, if_neg hx]
      cases h : splitOnChar c xs with
      | nil => simp
      | cons l ls => simp

theorem splitOnChar_of_not_mem {c : Char} {xs : List Char} (h : c ∉ xs) :
    splitOnChar c xs = [xs] := by
  induction xs with
  | nil => rfl
  | cons x xs ih =>
    have hx : ¬ x = c := by
      intro he; exact h (he ▸ List.mem_cons_self x xs)
    have hxs : c ∉ xs := fun hm => h (List.mem_cons_of_mem x hm)
    simp only [splitOnChar, if_neg hx, ih hxs]

theorem splitOnChar_append {c : Char} {xs : List Char} (ys : List Char)
    (h : c ∉ xs) : splitOnChar c (xs ++ c :: ys) = xs :: splitOnChar c ys := by
  induction xs with
  | nil => simp [splitOnChar]
  | cons x xs ih =>
    have hx : ¬ x = c := by
      intro he; exact h (he ▸ List.mem_cons_self x xs)
    have hxs : c ∉ xs := fun hm => h (List.mem_cons_of_mem x hm)
    simp only [List.cons_append, splitOnChar, if_neg hx, List.append_eq, ih hxs]

theorem dropWhile_eq_self {p : Char → Bool} {xs : List Char}
    (h : ∀ x ∈ xs, p x = false) : xs.dropWhile p = xs := by
  cases xs with
  | nil => rfl
  | cons x xs =>
    rw [List.dropWhile_cons_of_neg]
    rw [h x (List.mem_cons_self x xs)]
    exact Bool.false_ne_true

theorem trimC_eq_self {xs : List Char} (h : ∀ x ∈ xs, isSpaceC x = false) :
    trimC xs = xs := by
  unfold trimC
  rw [dropWhile_eq_self h]
  rw [dropWhile_eq_self (fun x hx => h x (List.mem_reverse.mp hx))]
  exact List.reverse_reverse xs

theorem isSpaceC_false_of_isDigitC {c : Char} (h : isDigitC c = true) :
    isSpaceC c = false := by
  by_contra hs
  have hs' : isSpaceC c = true := by
    cases hcc : isSpaceC c
    · exact absurd hcc hs
    · rfl
  have hor := hs'
  simp only [isSpaceC, Bool.or_eq_true, decide_eq_true_eq] at hor
  rcases hor with ((h1 | h1) | h1) | h1 <;> subst h1 <;>
    exact absurd h (by decide)

/-! ## Lemmas: calendar dates -/

theorem one_le_daysInMonth (y m : ℕ) : 1 ≤ daysInMonth y m := by
  unfold daysInMonth
  split_ifs <;> omega

theorem dateLt_nextDay (dt : Date) : dateLt dt (nextDay dt) := by
  unfold nextDay dateLt
  split_ifs with h1 h2 <;> dsimp only <;> omega

theorem dateLt_trans {a b c : Date} (h1 : dateLt a b) (h2 : dateLt b c) :
    dateLt a c := by
  unfold dateLt at h1 h2 ⊢
  omega

theorem validDate_nextDay {dt : Date} (h : ValidDate dt) :
    ValidDate (nextDay dt) := by
  obtain ⟨h1, h2, h3, h4⟩ := h
  unfold nextDay ValidDate
  split_ifs with hd hm <;> dsimp only <;>
    refine ⟨?_, ?_, ?_, ?_⟩ <;>
    first
      | omega
      | exact one_le_daysInMonth _ _

theorem validDate_anchor : ValidDate anchorDate := by
  refine ⟨by decide, by decide, by decide, ?_⟩
  decide

theorem dateAfter_zero (dt : Date) : dateAfter 0 dt = dt := rfl

theorem dateAfter_succ (i : ℕ) (dt : Date) :
    dateAfter (i + 1) dt = nextDay (dateAfter i dt) := by
  unfold dateAfter
  exact Function.iterate_succ_apply' nextDay i dt

theorem dateLt_dateAfter_succ (i : ℕ) (dt : Date) :
    dateLt (dateAfter i dt) (dateAfter (i + 1) dt) := by
  rw [dateAfter_succ]
  exact dateLt_nextDay _

theorem dateRange_length (start : Date) (n : ℕ) :
    (dateRange start n).length = n := by
  simp [dateRange]

theorem dateRange_get (start : Date) (n i : ℕ) (h : i < (dateRange start n).length) :
    (dateRange start n).get ⟨i, h⟩ = dateAfter i start := by
  simp [dateRange]

/-! ## Lemmas: the manual parser -/

theorem parseVal_nil : parseVal [] = none := rfl

theorem parseAll_isSome {toks : List (List Char)}
    (h : ∀ tok ∈ toks, (parseVal tok).isSome = true) :
    ∃ vs, parseAll toks = some vs := by
  induction toks with
  | nil => exact ⟨[], rfl⟩
  | cons tok rest ih =>
    obtain ⟨vs, hvs⟩ := ih (fun x hx => h x (List.mem_cons_of_mem tok hx))
    have htok := h tok (List.mem_cons_self tok rest)
    obtain ⟨v, hv⟩ := Option.isSome_iff_exists.mp htok
    exact ⟨v :: vs, by simp [parseAll, hv, hvs]⟩

theorem parseAll_length {toks : List (List Char)} {vs : List ℚ}
    (h : parseAll toks = some vs) : vs.length = toks.length := by
  induction toks generalizing vs with
  | nil => simp [parseAll] at h; simp [← h]
  | cons tok rest ih =>
    simp only [parseAll] at h
    cases hv : parseVal tok with
    | none => rw [hv] at h; simp at h
    | some v =>
      rw [hv] at h
      cases hr : parseAll rest with
      | none => rw [hr] at h; simp at h
      | some ws =>
        rw [hr] at h
        simp only [Option.some.injEq] at h
        subst h
        simp [ih hr]

theorem parseAll_get {toks : List (List Char)} {vs : List ℚ}
    (h : parseAll toks = some vs) :
    ∀ i (hi : i < toks.length) (hv : i < vs.length),
      parseVal (toks.get ⟨i, hi⟩) = some (vs.get ⟨i, hv⟩) := by
  induction toks generalizing vs with
  | nil => intro i hi; simp at hi
  | cons tok rest ih =>
    simp only [parseAll] at h
    cases hvk : parseVal tok with
    | none => rw [hvk] at h; simp at h
    | some v =>
      rw [hvk] at h
      cases hr : parseAll rest with
      | none => rw [hr] at h; simp at h
      | some ws =>
        rw [hr] at h
        simp only [Option.some.injEq] at h
        subst h
        intro i hi hv
        cases i with
        | zero => simpa using hvk
        | succ j =>
          simpa using ih hr j (by simpa using hi) (by simpa using hv)

theorem zipWith_points_get (ds : List Date) (vs : List ℚ) (i : ℕ)
    (hi : i < (List.zipWith (fun dt v => Point.mk dt v) ds vs).length) :
    (List.zipWith (fun dt v => Point.mk dt v) ds vs).get ⟨i, hi⟩
      = Point.mk (ds.get ⟨i, List.lt_length_left_of_zipWith hi⟩)
          (vs.get ⟨i, List.lt_length_right_of_zipWith hi⟩) := by
  simp [List.get_eq_getElem, List.getElem_zipWith]

/-- C1: for every comma-separated input string whose every token parses as a
number, parseManual produces a table whose length equals the number of
tokens, whose dates are the consecutive daily dates starting at the fixed
anchor 2023-10-01 (strictly increasing by one day per row), and whose i-th
value is the i-th parsed token. -/
theorem C1_parseManual_shape (s : List Char)
    (h : ∀ tok ∈ splitOnChar ',' s, (parseVal tok).isSome = true) :
    ∃ t : SeriesTable, parseManual s = some t ∧
      t.length = (splitOnChar ',' s).length ∧
      (∀ i (hi : i < t.length), (t.get ⟨i, hi⟩).date = dateAfter i anchorDate) ∧
      (∀ i (hi : i + 1 < t.length),
        dateLt (t.get ⟨i, Nat.lt_of_succ_lt hi⟩).date (t.get ⟨i + 1, hi⟩).date) ∧
      (∀ i (hi : i < t.length) (hs : i < (splitOnChar ',' s).length),
        parseVal ((splitOnChar ',' s).get ⟨i, hs⟩) = some (t.get ⟨i, hi⟩).value) := by
  have hne : ¬ s.isEmpty = true := by
    intro he
    rw [List.isEmpty_iff] at he
    subst he
    have h0 := h [] (by rw [show splitOnChar ',' [] = [[]] from rfl]; exact List.mem_singleton.mpr rfl)
    rw [parseVal_nil] at h0
    simp at h0
  obtain ⟨vs, hvs⟩ := parseAll_isSome h
  have hlen := parseAll_length hvs
  refine ⟨List.zipWith (fun dt v => Point.mk dt v) (dateRange anchorDate vs.length) vs,
    ?_, ?_, ?_, ?_, ?_⟩
  · unfold parseManual
    rw [if_neg hne, hvs]
  · simp [List.length_zipWith, dateRange_length, hlen]
  · intro i hi
    rw [zipWith_points_get]
    exact dateRange_get _ _ _ _
  · intro i hi
    rw [zipWith_points_get, zipWith_points_get]
    rw [dateRange_get, dateRange_get]
    exact dateLt_dateAfter_succ i anchorDate
  · intro i hi hs
    rw [zipWith_points_get]
    exact parseAll_get hvs i hs (List.lt_length_right_of_zipWith hi)

/-- Witness for C1 at the sample input of app.py line 48. -/
theorem C1_parseManual_shape_witness :
    ∃ t : SeriesTable, parseManual sampleInput = some t ∧
      t.length = (splitOnChar ',' sampleInput).length ∧
      (∀ i (hi : i < t.length), (t.get ⟨i, hi⟩).date = dateAfter i anchorDate) ∧
      (∀ i (hi : i + 1 < t.length),
        dateLt (t.get ⟨i, Nat.lt_of_succ_lt hi⟩).date (t.get ⟨i + 1, hi⟩).date) ∧
      (∀ i (hi : i < t.length) (hs : i < (splitOnChar ',' sampleInput).length),
        parseVal ((splitOnChar ',' sampleInput).get ⟨i, hs⟩)
          = some (t.get ⟨i, hi⟩).value) :=
  C1_parseManual_shape sampleInput (by decide)

/-! ## Lemmas: column minimum and maximum -/

theorem foldl_min_le_init (l : List Point) (a : ℚ) :
    l.foldl (fun b x => min b x.value) a ≤ a := by
  induction l generalizing a with
  | nil => exact le_refl a
  | cons q r ih =>
    calc (q :: r).foldl (fun b x => min b x.value) a
        = r.foldl (fun b x => min b x.value) (min a q.value) := rfl
      _ ≤ min a q.value := ih _
      _ ≤ a := min_le_left _ _

theorem foldl_min_le_mem {l : List Point} {p : Point} (hp : p ∈ l) (a : ℚ) :
    l.foldl (fun b x => min b x.value) a ≤ p.value := by
  induction l generalizing a with
  | nil => simp at hp
  | cons q r ih =>
    rcases List.mem_cons.mp hp with he | hm
    · subst he
      calc (p :: r).foldl (fun b x => min b x.value) a
          = r.foldl (fun b x => min b x.value) (min a p.value) := rfl
        _ ≤ min a p.value := foldl_min_le_init r _
        _ ≤ p.value := min_le_right _ _
    · exact ih hm _

theorem init_le_foldl_max (l : List Point) (a : ℚ) :
    a ≤ l.foldl (fun b x => max b x.value) a := by
  induction l generalizing a with
  | nil => exact le_refl a
  | cons q r ih =>
    calc a ≤ max a q.value := le_max_left _ _
      _ ≤ r.foldl (fun b x => max b x.value) (max a q.value) := ih _
      _ = (q :: r).foldl (fun b x => max b x.value) a := rfl

theorem mem_le_foldl_max {l : List Point} {p : Point} (hp : p ∈ l) (a : ℚ) :
    p.value ≤ l.foldl (fun b x => max b x.value) a := by
  induction l generalizing a with
  | nil => simp at hp
  | cons q r ih =>
    rcases List.mem_cons.mp hp with he | hm
    · subst he
      calc p.value ≤ max a p.value := le_max_right _ _
        _ ≤ r.foldl (fun b x => max b x.value) (max a p.value) :=
            init_le_foldl_max r _
    · exact ih hm _

theorem minQ_le {t : SeriesTable} {p : Point} (hp : p ∈ t) : minQ t ≤ p.value := by
  cases t with
  | nil => simp at hp
  | cons q r =>
    rcases List.mem_cons.mp hp with he | hm
    · subst he
      exact foldl_min_le_init r _
    · exact foldl_min_le_mem hm _

theorem le_maxQ {t : SeriesTable} {p : Point} (hp : p ∈ t) : p.value ≤ maxQ t := by
  cases t with
  | nil => simp at hp
  | cons q r =>
    rcases List.mem_cons.mp hp with he | hm
    · subst he
      exact init_le_foldl_max r _
    · exact mem_le_foldl_max hm _

theorem foldl_max_attained (l : List Point) (a : ℚ) :
    l.foldl (fun b x => max b x.value) a = a ∨
      ∃ p ∈ l, l.foldl (fun b x => max b x.value) a = p.value := by
  induction l generalizing a with
  | nil => exact Or.inl rfl
  | cons q r ih =>
    have hstep : (q :: r).foldl (fun b x => max b x.value) a
        = r.foldl (fun b x => max b x.value) (max a q.value) := rfl
    rcases ih (max a q.value) with he | ⟨p, hp, hpe⟩
    · rcases max_choice a q.value with hc | hc
      · exact Or.inl (by rw [hstep, he, hc])
      · exact Or.inr ⟨q, List.mem_cons_self q r, by rw [hstep, he, hc]⟩
    · exact Or.inr ⟨p, List.mem_cons_of_mem q hp, by rw [hstep, hpe]⟩

theorem maxQ_attained {t : SeriesTable} (h : t ≠ []) :
    ∃ p ∈ t, p.value = maxQ t := by
  cases t with
  | nil => exact absurd rfl h
  | cons q r =>
    rcases foldl_max_attained r q.value with he | ⟨p, hp, hpe⟩
    · exact ⟨q, List.mem_cons_self q r, he.symm⟩
    · exact ⟨p, List.mem_cons_of_mem q hp, hpe.symm⟩

/-! ## Lemmas: the range filter -/

theorem mem_filterByRange {t : SeriesTable} {low high : ℚ} {p : Point} :
    p ∈ filterByRange t low high ↔ p ∈ t ∧ low ≤ p.value ∧ p.value ≤ high := by
  simp [filterByRange, List.mem_filter, and_assoc]

theorem filterByRange_full {t : SeriesTable} (h : t ≠ []) :
    filterByRange t (minQ t) (maxQ t) = t := by
  apply List.filter_eq_self.mpr
  intro p hp
  simp [minQ_le hp, le_maxQ hp]

/-- C2: filterByRange returns exactly the rows whose value lies in the
inclusive range, preserving the original relative order; at the full range
from the minimum to the maximum of the table it is the identity; and the
sample series 3,5,7,9,11,8,6,4 filtered to the range 5..9 yields 5,7,9,8,6. -/
theorem C2_filterByRange (t : SeriesTable) (low high : ℚ) (hlh : low ≤ high) :
    ((filterByRange t low high).Sublist t ∧
      (∀ p, p ∈ filterByRange t low high ↔
        p ∈ t ∧ low ≤ p.value ∧ p.value ≤ high)) ∧
    (∀ t2 : SeriesTable, t2 ≠ [] → filterByRange t2 (minQ t2) (maxQ t2) = t2) ∧
    (filterByRange sampleTable 5 9).map Point.value = [5, 7, 9, 8, 6] := by
  refine ⟨⟨List.filter_sublist t, fun p => mem_filterByRange⟩,
    fun t2 h2 => filterByRange_full h2, by decide⟩

/-- Witness for C2 at the sample series with the range 5..9. -/
theorem C2_filterByRange_witness :
    filterByRange sampleTable (minQ sampleTable) (maxQ sampleTable) = sampleTable :=
  (C2_filterByRange sampleTable 5 9 (by decide)).2.1 sampleTable (by decide)

/-! ## Lemmas: sums and means -/

theorem sumQ_cons (q : Point) (r : SeriesTable) :
    sumQ (q :: r) = q.value + sumQ r := by
  simp [sumQ]

theorem sumQ_le {t : SeriesTable} {M : ℚ} (h : ∀ p ∈ t, p.value ≤ M) :
    sumQ t ≤ (t.length : ℚ) * M := by
  induction t with
  | nil => simp [sumQ]
  | cons q r ih =>
    have hq := h q (List.mem_cons_self q r)
    have hr := ih (fun p hp => h p (List.mem_cons_of_mem q hp))
    rw [sumQ_cons]
    have hexp : ((q :: r).length : ℚ) * M = (r.length : ℚ) * M + M := by
      push_cast [List.length_cons]
      ring
    rw [hexp]
    linarith

theorem le_sumQ {t : SeriesTable} {m : ℚ} (h : ∀ p ∈ t, m ≤ p.value) :
    (t.length : ℚ) * m ≤ sumQ t := by
  induction t with
  | nil => simp [sumQ]
  | cons q r ih =>
    have hq := h q (List.mem_cons_self q r)
    have hr := ih (fun p hp => h p (List.mem_cons_of_mem q hp))
    rw [sumQ_cons]
    have hexp : ((q :: r).length : ℚ) * m = (r.length : ℚ) * m + m := by
      push_cast [List.length_cons]
      ring
    rw [hexp]
    linarith

/-- C7: for every non-empty table, summarize yields definite (non-NaN)
statistics and the mean lies between the minimum and the maximum of the
value column. -/
theorem C7_mean_between (t : SeriesTable) (h : t ≠ []) :
    (summarize t).mean = PVal.val (meanQ t) ∧
    (summarize t).max = PVal.val (maxQ t) ∧
    (summarize t).min = PVal.val (minQ t) ∧
    minQ t ≤ meanQ t ∧ meanQ t ≤ maxQ t := by
  have hne : ¬ t.isEmpty = true := by
    simpa [List.isEmpty_iff] using h
  have hlen : 0 < t.length := List.length_pos.mpr h
  have hlenQ : (0 : ℚ) < (t.length : ℚ) := by exact_mod_cast hlen
  refine ⟨by simp [summarize, hne], by simp [summarize, hne],
    by simp [summarize, hne], ?_, ?_⟩
  · rw [meanQ, le_div_iff₀ hlenQ]
    have := @le_sumQ t (minQ t) (fun p hp => minQ_le hp)
    linarith
  · rw [meanQ, div_le_iff₀ hlenQ]
    have := @sumQ_le t (maxQ t) (fun p hp => le_maxQ hp)
    linarith

/-- Witness for C7 at the sample series. -/
theorem C7_mean_between_witness :
    minQ sampleTable ≤ meanQ sampleTable ∧ meanQ sampleTable ≤ maxQ sampleTable :=
  ⟨(C7_mean_between sampleTable (by decide)).2.2.2.1,
   (C7_mean_between sampleTable (by decide)).2.2.2.2⟩

/-- Counterexample to C4: summarize applied to the empty table produces NaN
mean, max and min — the pandas aggregates of an empty column — rather than
reporting an EmptyDataError. -/
theorem C4_summarize_empty_cex :
    summarize [] = ⟨PVal.nan, PVal.nan, PVal.nan⟩ ∧
    ¬ ∃ q : ℚ, (summarize []).mean = PVal.val q := by
  refine ⟨rfl, ?_⟩
  rintro ⟨q, hq⟩
  simp [summarize] at hq

/-- C4 as amended: on a table with zero rows summarize yields NaN for every
aggregate (no EmptyDataError is reported); on non-empty tables no aggregate
is ever NaN; the EmptyDataError of the error taxonomy arises one stage
earlier, from parseFile on a file with no lines at all. -/
theorem C4_summarize_nan (t : SeriesTable) (h : t ≠ []) :
    ((summarize t).mean ≠ PVal.nan ∧ (summarize t).max ≠ PVal.nan ∧
      (summarize t).min ≠ PVal.nan) ∧
    summarize [] = ⟨PVal.nan, PVal.nan, PVal.nan⟩ ∧
    parseFile [] = Except.error AppErr.emptyData := by
  have hne : ¬ t.isEmpty = true := by
    simpa [List.isEmpty_iff] using h
  refine ⟨⟨?_, ?_, ?_⟩, rfl, rfl⟩ <;> simp [summarize, hne]

/-- Witness for C4 as amended, at the sample series. -/
theorem C4_summarize_nan_witness : (summarize sampleTable).mean ≠ PVal.nan :=
  (C4_summarize_nan sampleTable (by decide)).1.1

/-- Counterexample to C9: parseManual applied to the empty input string
produces no table at all (the guard skips processing), not an empty table. -/
theorem C9_empty_input_cex :
    parseManual [] = none ∧ parseManual [] ≠ some ([] : SeriesTable) := by
  exact ⟨rfl, by decide⟩

/-- C9 as amended: parseManual applied to an empty input string yields no
SeriesTable whatsoever — the guard on the input skips parsing, so neither an
empty table nor any other table is produced. -/
theorem C9_empty_input_no_table :
    parseManual [] = none ∧ ∀ t : SeriesTable, parseManual [] ≠ some t :=
  ⟨rfl, fun t h => by rw [show parseManual [] = none from rfl] at h; exact Option.noConfusion h⟩

/-- C6: classifySeverity is a pure function of the maximum, yielding High
exactly when the maximum exceeds 10, Moderate exactly when it lies in
(7, 10], and Low exactly otherwise; the sample series has maximum 11 and
classifies as High. -/
theorem C6_classifySeverity (mx : ℚ) :
    (classifySeverity (PVal.val mx) = Severity.High ↔ 10 < mx) ∧
    (classifySeverity (PVal.val mx) = Severity.Moderate ↔ 7 < mx ∧ mx ≤ 10) ∧
    (classifySeverity (PVal.val mx) = Severity.Low ↔ mx ≤ 7) ∧
    maxQ sampleTable = 11 ∧
    classifySeverity (summarize sampleTable).max = Severity.High := by
  have hmaster : classifySeverity (PVal.val mx)
      = if 10 < mx then Severity.High
        else if 7 < mx then Severity.Moderate else Severity.Low := by
    simp [classifySeverity, pvGtB]
  refine ⟨?_, ?_, ?_, by decide, by decide⟩ <;> rw [hmaster]
  · split_ifs with h1 h2 <;> simp_all
  · split_ifs with h1 h2 <;> simp_all <;> linarith
  · split_ifs with h1 h2 <;> simp_all <;> linarith

/-! ## Lemmas: schema validation and the upload pipeline -/

theorem ensureColumns_iff (cols req : List (List Char)) :
    ensureColumns cols req = true ↔ ∀ c ∈ req, c ∈ cols := by
  simp [ensureColumns, List.all_eq_true, List.contains, List.elem_iff]

/-- C5: ensureColumns succeeds exactly when every required column is present;
a file whose header lacks the UV Index column is rejected with a schema
error and the pipeline of that cycle produces no statistics, severity or
filtered output at all. -/
theorem C5_ensureColumns :
    (∀ cols req : List (List Char),
      ensureColumns cols req = true ↔ ∀ c ∈ req, c ∈ cols) ∧
    (∀ (cs : List Char) (cols : List (List Char)), headerCols cs = some cols →
      dateColName ∉ cols ∨ uvColName ∉ cols →
      parseFile cs = Except.error AppErr.schemaErr ∧ uploadOutputs cs = none) := by
  refine ⟨ensureColumns_iff, ?_⟩
  intro cs cols hhc hnot
  rcases hcl : csvLines cs with _ | ⟨header, rows⟩
  · rw [headerCols, hcl] at hhc
    exact Option.noConfusion hhc
  · rw [headerCols, hcl] at hhc
    rw [Option.some.injEq] at hhc
    have hens : ¬ ensureColumns (splitOnChar ',' header) [dateColName, uvColName] = true := by
      rw [ensureColumns_iff]
      intro hall
      rcases hnot with hmiss | hmiss
      · exact hmiss (hhc ▸ hall dateColName (by simp))
      · exact hmiss (hhc ▸ hall uvColName (by simp))
    have hpf : parseFile cs = Except.error AppErr.schemaErr := by
      rw [parseFile, hcl]
      simp only [if_neg hens]
    refine ⟨hpf, ?_⟩
    rw [uploadOutputs, hpf]

/-- A concrete uploaded file whose header lacks the UV Index column. -/
def missingColFile : List Char := "Date,Other\n2023-01-01,5\n".toList

/-- A concrete uploaded file whose header lacks the Date column. -/
def missingDateFile : List Char := "Day,UV Index\n2023-01-01,5\n".toList

/-- Witness for C5 at a concrete file missing the UV Index column and a
concrete file missing the Date column. -/
theorem C5_ensureColumns_witness :
    (parseFile missingColFile = Except.error AppErr.schemaErr ∧
      uploadOutputs missingColFile = none) ∧
    (parseFile missingDateFile = Except.error AppErr.schemaErr ∧
      uploadOutputs missingDateFile = none) :=
  ⟨C5_ensureColumns.2 missingColFile (splitOnChar ',' "Date,Other".toList)
      (by decide) (Or.inr (by decide)),
   C5_ensureColumns.2 missingDateFile (splitOnChar ',' "Day,UV Index".toList)
      (by decide) (Or.inl (by decide))⟩

/-! ## Lemmas: the external data fetcher -/

/-- Counterexample to C8: a 200 response whose JSON body lacks the field is
an uncaught exception, not a success — so success is not equivalent to
status 200 — while a 404 response does follow the error path. -/
theorem C8_fetch_cex :
    fetchScalarField ⟨200, Json.obj []⟩ uvFieldPath = FetchOutcome.crash ∧
    fetchScalarField ⟨404, Json.obj []⟩ uvFieldPath = FetchOutcome.fetchError 404 :=
  ⟨rfl, rfl⟩

/-- C8 as amended: the branch is solely on the status code — any non-200
status yields the fetch-error outcome carrying that status (the sidebar
failure message) and never crashes; a 200 response succeeds with the
extracted field exactly when the field path resolves in the body, and a 200
response whose body lacks the field is an uncaught exception. -/
theorem C8_fetchScalarField (resp : HttpResponse) (path : List (List Char)) :
    (resp.status ≠ 200 →
      fetchScalarField resp path = FetchOutcome.fetchError resp.status) ∧
    (∀ v, jsonPath resp.body path = some v → resp.status = 200 →
      fetchScalarField resp path = FetchOutcome.ok v) ∧
    ((∃ v, fetchScalarField resp path = FetchOutcome.ok v) ↔
      resp.status = 200 ∧ (jsonPath resp.body path).isSome = true) := by
  by_cases h200 : resp.status = 200
  · cases hj : jsonPath resp.body path with
    | none =>
      have hcr : fetchScalarField resp path = FetchOutcome.crash := by
        rw [fetchScalarField, if_pos h200, hj]
      refine ⟨fun hne => absurd h200 hne, ?_, ?_⟩
      · intro v hv
        exact Option.noConfusion hv
      · rw [hcr]
        constructor
        · rintro ⟨v, hv⟩
          exact FetchOutcome.noConfusion hv
        · rintro ⟨h2, hs⟩
          simp at hs
    | some v0 =>
      have hok : fetchScalarField resp path = FetchOutcome.ok v0 := by
        rw [fetchScalarField, if_pos h200, hj]
      refine ⟨fun hne => absurd h200 hne, ?_, ?_⟩
      · intro v hv h2
        rw [Option.some.injEq] at hv
        rw [hok, hv]
      · rw [hok]
        constructor
        · intro _
          exact ⟨h200, rfl⟩
        · intro _
          exact ⟨v0, rfl⟩
  · have hfe : fetchScalarField resp path = FetchOutcome.fetchError resp.status := by
      rw [fetchScalarField, if_neg h200]
    refine ⟨fun _ => hfe, fun v hv h2 => absurd h2 h200, ?_⟩
    rw [hfe]
    constructor
    · rintro ⟨v, hv⟩
      exact FetchOutcome.noConfusion hv
    · rintro ⟨h2, _⟩
      exact absurd h2 h200

/-- Witness for C8 as amended, at a mocked 404 response. -/
theorem C8_fetchScalarField_witness :
    fetchScalarField ⟨404, Json.obj []⟩ uvFieldPath = FetchOutcome.fetchError 404 :=
  (C8_fetchScalarField ⟨404, Json.obj []⟩ uvFieldPath).1 (by decide)

/-! ## Lemmas: the default slider selection -/

theorem ratFloor_eq_intFloor (q : ℚ) : Rat.floor q = ⌊q⌋ := by
  rw [Rat.floor_def', Rat.floor_def]

theorem truncQ_pos_floor {q : ℚ} (h : 0 < q) : truncQ q = ⌊q⌋ := by
  rw [truncQ, if_pos (le_of_lt h), ratFloor_eq_intFloor]

theorem floor_lt_self_of_den_ne_one {q : ℚ} (h : q.den ≠ 1) : ((⌊q⌋ : ℤ) : ℚ) < q := by
  rcases lt_or_eq_of_le (Int.floor_le q) with hlt | heq
  · exact hlt
  · exfalso
    apply h
    have hq : q = ((⌊q⌋ : ℤ) : ℚ) := heq.symm
    rw [hq, Rat.den_intCast]

/-- A table whose maximum is negative with nonzero fractional part: the
truncated slider bounds do not exclude the maximum row. -/
def negTable : SeriesTable :=
  [Point.mk anchorDate (-10), Point.mk (nextDay anchorDate) (mkRat (-5) 2)]

/-- Counterexample to C10: in a table whose maximum value is -2.5 (nonzero
fractional part), Python int() truncates toward zero, the upper slider bound
-2 lies above the maximum, and the row attaining the maximum is retained by
the default full-width filter selection. -/
theorem C10_default_filter_cex :
    (maxQ negTable).den ≠ 1 ∧
    Point.mk (nextDay anchorDate) (mkRat (-5) 2) ∈ filteredDefault negTable ∧
    (Point.mk (nextDay anchorDate) (mkRat (-5) 2)).value = maxQ negTable := by
  decide

/-- C10 as amended: the slider bounds are the toward-zero truncations of the
column minimum and maximum; for a table whose maximum is positive with a
nonzero fractional part the default full-width selection excludes every row
attaining the maximum, so it is not the identity (for a negative fractional
maximum the truncated bound lies above it and the exclusion can fail). -/
theorem C10_default_filter (t : SeriesTable) (h : t ≠ []) (hpos : 0 < maxQ t)
    (hden : (maxQ t).den ≠ 1) :
    (∀ p ∈ filteredDefault t, p.value ≠ maxQ t) ∧ filteredDefault t ≠ t := by
  have hkey : ∀ p ∈ filteredDefault t, p.value ≠ maxQ t := by
    intro p hp he
    rw [filteredDefault] at hp
    have hle : p.value ≤ ((truncQ (maxQ t) : ℤ) : ℚ) := (mem_filterByRange.mp hp).2.2
    rw [he, truncQ_pos_floor hpos] at hle
    exact absurd hle (not_le.mpr (floor_lt_self_of_den_ne_one hden))
  refine ⟨hkey, ?_⟩
  intro hfe
  obtain ⟨pm, hpm, hpe⟩ := maxQ_attained h
  exact hkey pm (by rw [hfe]; exact hpm) hpe

/-- A table whose maximum is 5.5: positive with nonzero fractional part. -/
def fracTable : SeriesTable :=
  [Point.mk anchorDate 3, Point.mk (nextDay anchorDate) (mkRat 11 2)]

/-- Witness for C10 as amended, at a table with maximum 5.5. -/
theorem C10_default_filter_witness : filteredDefault fracTable ≠ fracTable :=
  (C10_default_filter fracTable (by decide) (by decide) (by decide)).2

/-! ## Lemmas: decimal denominators -/

/-- A divisor of some power of ten divides the power of ten with itself as
the exponent. -/
theorem dvd_ten_pow_self (d : ℕ) : ∀ e, d ∣ 10 ^ e → d ∣ 10 ^ d := by
  induction d using Nat.strong_induction_on with
  | _ d ih =>
    intro e hde
    rcases Nat.eq_zero_or_pos d with rfl | hdpos
    · have h0 : (10 : ℕ) ^ e = 0 := Nat.eq_zero_of_zero_dvd hde
      exact absurd h0 (pow_ne_zero e (by omega))
    rcases Nat.lt_or_ge d 2 with hd1 | hd2
    · have hd : d = 1 := by omega
      subst hd
      exact one_dvd _
    · obtain ⟨p, hp, hpd⟩ := Nat.exists_prime_and_dvd (by omega : d ≠ 1)
      have hp10 : p ∣ 10 := hp.dvd_of_dvd_pow (hpd.trans hde)
      have hdm : d = p * (d / p) := (Nat.mul_div_cancel' hpd).symm
      have hp2 : 2 ≤ p := hp.two_le
      have hmpos : 0 < d / p := by
        rcases Nat.eq_zero_or_pos (d / p) with h0 | h
        · rw [h0, mul_zero] at hdm; omega
        · exact h
      have h2m : 2 * (d / p) ≤ d := by
        calc 2 * (d / p) ≤ p * (d / p) := Nat.mul_le_mul_right _ hp2
          _ = d := hdm.symm
      have hmlt : d / p < d := by omega
      have hmdvd : d / p ∣ 10 ^ e :=
        dvd_trans (Nat.div_dvd_of_dvd hpd) hde
      have hm10 : d / p ∣ 10 ^ (d / p) := ih (d / p) hmlt e hmdvd
      have hstep : d ∣ 10 ^ (d / p + 1) := by
        have hmm : p * (d / p) ∣ 10 * 10 ^ (d / p) := mul_dvd_mul hp10 hm10
        rw [← hdm] at hmm
        calc d ∣ 10 * 10 ^ (d / p) := hmm
          _ = 10 ^ (d / p + 1) := by rw [pow_succ]; ring
      exact hstep.trans (pow_dvd_pow 10 (by omega))

/-- When the denominator divides some power of ten, the printing exponent
found by decExp really works. -/
theorem decExp_dvd {q : ℚ} (h : ∃ e, q.den ∣ 10 ^ e) :
    q.den ∣ 10 ^ decExp q := by
  obtain ⟨e, he⟩ := h
  have hd : q.den ∣ 10 ^ q.den := dvd_ten_pow_self q.den e he
  have hmem : ∃ x ∈ List.range (q.den + 1),
      (fun k => decide (q.den ∣ 10 ^ k)) x = true :=
    ⟨q.den, List.mem_range.mpr (by omega), by simpa using hd⟩
  have hsome : ((List.range (q.den + 1)).find?
      (fun k => decide (q.den ∣ 10 ^ k))).isSome = true :=
    List.find?_isSome.mpr hmem
  obtain ⟨k, hk⟩ := Option.isSome_iff_exists.mp hsome
  have hpk := List.find?_some hk
  rw [decExp, hk]
  simpa using hpk

/-- The denominator of `mkRat z n` divides `n`. -/
theorem mkRat_den_dvd (z : ℤ) (n : ℕ) : (mkRat z n).den ∣ n := by
  have h := Rat.den_dvd z (n : ℤ)
  rw [← Rat.mkRat_eq_divInt] at h
  exact_mod_cast h

/-- Every value produced by parseVal has a denominator dividing a power of
ten. -/
theorem parseVal_den_dvd {cs : List Char} {q : ℚ} (h : parseVal cs = some q) :
    ∃ k, q.den ∣ 10 ^ k := by
  rw [parseVal] at h
  split at h <;>
  · obtain ⟨p, _, hpe⟩ := Option.map_eq_some'.mp h
    exact ⟨p.2, hpe ▸ mkRat_den_dvd _ _⟩

/-- Rebuilding a nonnegative rational from a scaled numerator. -/
theorem mkRat_eq_self_nonneg {q : ℚ} {a L : ℕ}
    (ha : a * q.den = q.num.natAbs * 10 ^ L) (hq : 0 ≤ q.num) :
    mkRat (a : ℤ) (10 ^ L) = q := by
  have hL : ((10 ^ L : ℕ) : ℤ) ≠ 0 :=
    Int.natCast_ne_zero.mpr (pow_ne_zero _ (by omega))
  have hden : (q.den : ℤ) ≠ 0 := Int.natCast_ne_zero.mpr q.den_nz
  have hnum : (q.num.natAbs : ℤ) = q.num := Int.natAbs_of_nonneg hq
  have key : Rat.divInt (a : ℤ) ((10 ^ L : ℕ) : ℤ)
      = Rat.divInt q.num (q.den : ℤ) := by
    rw [Rat.divInt_eq_iff hL hden]
    calc (a : ℤ) * (q.den : ℤ) = ((a * q.den : ℕ) : ℤ) := by push_cast; ring
      _ = ((q.num.natAbs * 10 ^ L : ℕ) : ℤ) := by rw [ha]
      _ = q.num * ((10 ^ L : ℕ) : ℤ) := by push_cast [hnum]; ring
  rw [Rat.mkRat_eq_divInt]
  calc Rat.divInt (a : ℤ) ((10 ^ L : ℕ) : ℤ)
      = Rat.divInt q.num (q.den : ℤ) := key
    _ = q := Rat.num_divInt_den q

/-- Rebuilding a negative rational from a scaled numerator of its absolute
value. -/
theorem mkRat_eq_self_neg {q : ℚ} {a L : ℕ}
    (ha : a * q.den = q.num.natAbs * 10 ^ L) (hq : q.num < 0) :
    mkRat (-(a : ℤ)) (10 ^ L) = q := by
  have hL : ((10 ^ L : ℕ) : ℤ) ≠ 0 :=
    Int.natCast_ne_zero.mpr (pow_ne_zero _ (by omega))
  have hden : (q.den : ℤ) ≠ 0 := Int.natCast_ne_zero.mpr q.den_nz
  have hnum : (q.num.natAbs : ℤ) = -q.num := by omega
  have key : Rat.divInt (-(a : ℤ)) ((10 ^ L : ℕ) : ℤ)
      = Rat.divInt q.num (q.den : ℤ) := by
    rw [Rat.divInt_eq_iff hL hden]
    have hc : (a : ℤ) * (q.den : ℤ) = -q.num * ((10 ^ L : ℕ) : ℤ) := by
      calc (a : ℤ) * (q.den : ℤ) = ((a * q.den : ℕ) : ℤ) := by push_cast; ring
        _ = ((q.num.natAbs * 10 ^ L : ℕ) : ℤ) := by rw [ha]
        _ = -q.num * ((10 ^ L : ℕ) : ℤ) := by push_cast [hnum]; ring
    linarith
  rw [Rat.mkRat_eq_divInt]
  calc Rat.divInt (-(a : ℤ)) ((10 ^ L : ℕ) : ℤ)
      = Rat.divInt q.num (q.den : ℤ) := key
    _ = q := Rat.num_divInt_den q

theorem printVal_def (q : ℚ) :
    printVal q = (if q.num < 0 then ['-'] else []) ++
      (if decExp q = 0 then
        printNat (q.num.natAbs * 10 ^ decExp q / q.den) ++ ['.', '0']
      else
        printNat (q.num.natAbs * 10 ^ decExp q / q.den / 10 ^ decExp q) ++
          '.' :: printPad (decExp q)
            (q.num.natAbs * 10 ^ decExp q / q.den % 10 ^ decExp q)) := by
  simp only [printVal]
  split_ifs <;> simp

theorem printVal_chars {q : ℚ} :
    ∀ c ∈ printVal q, isDigitC c = true ∨ c = '-' ∨ c = '.' := by
  intro c hc
  rw [printVal_def] at hc
  rcases List.mem_append.mp hc with h | h
  · split_ifs at h
    · rw [List.mem_singleton.mp h]
      right; left; rfl
    · simp at h
  · split_ifs at h
    · rcases List.mem_append.mp h with h2 | h2
      · exact Or.inl (List.all_eq_true.mp (allDigits_printNat _) c h2)
      · rcases List.mem_cons.mp h2 with h3 | h3
        · right; right; exact h3
        · rw [List.mem_singleton.mp h3]
          left; rfl
    · rcases List.mem_append.mp h with h2 | h2
      · exact Or.inl (List.all_eq_true.mp (allDigits_printNat _) c h2)
      · rcases List.mem_cons.mp h2 with h3 | h3
        · right; right; exact h3
        · exact Or.inl (List.all_eq_true.mp (allDigits_printPad _ _) c h3)

theorem printVal_no_space (q : ℚ) : ∀ c ∈ printVal q, isSpaceC c = false := by
  intro c hc
  rcases printVal_chars c hc with h | h | h
  · exact isSpaceC_false_of_isDigitC h
  · rw [h]; rfl
  · rw [h]; rfl

theorem trimC_printVal (q : ℚ) : trimC (printVal q) = printVal q :=
  trimC_eq_self (printVal_no_space q)

theorem isEmpty_false_of_ne_nil {l : List Char} (h : l ≠ []) : l.isEmpty = false := by
  cases hl : l.isEmpty
  · rfl
  · exact absurd (List.isEmpty_iff.mp hl) h

theorem parseUnsignedParts_dot_zero (m : ℕ) :
    parseUnsignedParts (printNat m ++ ['.', '0']) = some (m * 10, 1) := by
  have hsplit : splitOnChar '.' (printNat m ++ ['.', '0']) = [printNat m, ['0']] := by
    rw [show printNat m ++ ['.', '0'] = printNat m ++ '.' :: ['0'] from rfl]
    rw [splitOnChar_append ['0']
      (show ('.' : Char) ∉ printNat m from
        not_mem_of_allDigits (allDigits_printNat m) (by decide))]
    rw [splitOnChar_of_not_mem (show ('.' : Char) ∉ ['0'] by decide)]
  rw [parseUnsignedParts, hsplit]
  dsimp only
  rw [if_pos]
  · rw [valOfDigits_printNat]
    rfl
  · rw [isEmpty_false_of_ne_nil (printNat_ne_nil m), allDigits_printNat]
    rfl

theorem parseUnsignedParts_pad {m e : ℕ} (he : 1 ≤ e) :
    parseUnsignedParts (printNat (m / 10 ^ e) ++ '.' :: printPad e (m % 10 ^ e))
      = some (m, e) := by
  have hmod : m % 10 ^ e < 10 ^ e := Nat.mod_lt _ (by positivity)
  have hsplit : splitOnChar '.'
      (printNat (m / 10 ^ e) ++ '.' :: printPad e (m % 10 ^ e))
      = [printNat (m / 10 ^ e), printPad e (m % 10 ^ e)] := by
    rw [splitOnChar_append _
      (show ('.' : Char) ∉ printNat (m / 10 ^ e) from
        not_mem_of_allDigits (allDigits_printNat _) (by decide))]
    rw [splitOnChar_of_not_mem
      (show ('.' : Char) ∉ printPad e (m % 10 ^ e) from
        not_mem_of_allDigits (allDigits_printPad _ _) (by decide))]
  rw [parseUnsignedParts, hsplit]
  dsimp only
  rw [if_pos]
  · rw [valOfDigits_printNat, valOfDigits_printPad, printPad_length he hmod]
    have hdm := Nat.div_add_mod m (10 ^ e)
    rw [Option.some.injEq, Prod.mk.injEq]
    constructor
    · rw [Nat.mul_comm (m / 10 ^ e) (10 ^ e)] at *
      omega
    · rfl
  · rw [isEmpty_false_of_ne_nil (printNat_ne_nil _), allDigits_printNat,
      allDigits_printPad]
    rfl

theorem parseVal_neg {r : List Char} (ht : trimC ('-' :: r) = '-' :: r) :
    parseVal ('-' :: r)
      = (parseUnsignedParts r).map (fun p => mkRat (-(p.1 : ℤ)) (10 ^ p.2)) := by
  rw [parseVal, ht]
  rfl

theorem parseVal_cons_digit {c : Char} {r : List Char} (hd : isDigitC c = true)
    (ht : trimC (c :: r) = c :: r) :
    parseVal (c :: r)
      = (parseUnsignedParts (c :: r)).map (fun p => mkRat (p.1 : ℤ) (10 ^ p.2)) := by
  have h1 : c ≠ '-' := by
    intro he; rw [he] at hd; exact absurd hd (by decide)
  have h2 : c ≠ '+' := by
    intro he; rw [he] at hd; exact absurd hd (by decide)
  rw [parseVal, ht]
  split
  · next r2 heq =>
    rw [List.cons.injEq] at heq
    exact absurd heq.1 h1
  · next r2 heq =>
    rw [List.cons.injEq] at heq
    exact absurd heq.1 h2
  · rfl

theorem parseVal_printVal {q : ℚ} (h : ∃ k, q.den ∣ 10 ^ k) :
    parseVal (printVal q) = some q := by
  have hdvd : q.den ∣ 10 ^ decExp q := decExp_dvd h
  have hexact : q.num.natAbs * 10 ^ decExp q / q.den * q.den
      = q.num.natAbs * 10 ^ decExp q :=
    Nat.div_mul_cancel (Dvd.dvd.mul_left hdvd q.num.natAbs)
  have harith0 : decExp q = 0 →
      q.num.natAbs * 10 ^ decExp q / q.den * 10 * q.den
        = q.num.natAbs * 10 ^ 1 := by
    intro he0
    calc q.num.natAbs * 10 ^ decExp q / q.den * 10 * q.den
        = q.num.natAbs * 10 ^ decExp q / q.den * q.den * 10 := by ring
      _ = q.num.natAbs * 10 ^ decExp q * 10 := by rw [hexact]
      _ = q.num.natAbs * 10 ^ 1 := by rw [he0]; ring
  have ht := trimC_printVal q
  by_cases hneg : q.num < 0
  · have hpv : printVal q = '-' ::
        (if decExp q = 0 then
          printNat (q.num.natAbs * 10 ^ decExp q / q.den) ++ ['.', '0']
        else
          printNat (q.num.natAbs * 10 ^ decExp q / q.den / 10 ^ decExp q) ++
            '.' :: printPad (decExp q)
              (q.num.natAbs * 10 ^ decExp q / q.den % 10 ^ decExp q)) := by
      rw [printVal_def, if_pos hneg]
      rfl
    rw [hpv] at ht ⊢
    rw [parseVal_neg ht]
    by_cases he0 : decExp q = 0
    · rw [if_pos he0, parseUnsignedParts_dot_zero, Option.map_some']
      rw [Option.some.injEq]
      exact mkRat_eq_self_neg (harith0 he0) hneg
    · rw [if_neg he0, parseUnsignedParts_pad (by omega : 1 ≤ decExp q),
        Option.map_some', Option.some.injEq]
      exact mkRat_eq_self_neg hexact hneg
  · have hq0 : 0 ≤ q.num := le_of_not_lt hneg
    have hpv : printVal q =
        (if decExp q = 0 then
          printNat (q.num.natAbs * 10 ^ decExp q / q.den) ++ ['.', '0']
        else
          printNat (q.num.natAbs * 10 ^ decExp q / q.den / 10 ^ decExp q) ++
            '.' :: printPad (decExp q)
              (q.num.natAbs * 10 ^ decExp q / q.den % 10 ^ decExp q)) := by
      rw [printVal_def, if_neg hneg]
      rfl
    by_cases he0 : decExp q = 0
    · rw [if_pos he0] at hpv
      rcases hpn : printNat (q.num.natAbs * 10 ^ decExp q / q.den) with _ | ⟨c, cs⟩
      · exact absurd hpn (printNat_ne_nil _)
      · have hcd : isDigitC c = true :=
          List.all_eq_true.mp (allDigits_printNat _) c
            (by rw [hpn]; exact List.mem_cons_self c cs)
        have hlist : printVal q = c :: (cs ++ ['.', '0']) := by
          rw [hpv, hpn]
          rfl
        rw [hlist] at ht ⊢
        rw [parseVal_cons_digit hcd ht]
        rw [show c :: (cs ++ ['.', '0'])
            = printNat (q.num.natAbs * 10 ^ decExp q / q.den) ++ ['.', '0'] by
          rw [hpn]; rfl]
        rw [parseUnsignedParts_dot_zero, Option.map_some', Option.some.injEq]
        exact mkRat_eq_self_nonneg (harith0 he0) hq0
    · rw [if_neg he0] at hpv
      rcases hpn : printNat (q.num.natAbs * 10 ^ decExp q / q.den / 10 ^ decExp q)
        with _ | ⟨c, cs⟩
      · exact absurd hpn (printNat_ne_nil _)
      · have hcd : isDigitC c = true :=
          List.all_eq_true.mp (allDigits_printNat _) c
            (by rw [hpn]; exact List.mem_cons_self c cs)
        have hlist : printVal q = c :: (cs ++
            '.' :: printPad (decExp q)
              (q.num.natAbs * 10 ^ decExp q / q.den % 10 ^ decExp q)) := by
          rw [hpv, hpn]
          rfl
        rw [hlist] at ht ⊢
        rw [parseVal_cons_digit hcd ht]
        rw [show c :: (cs ++ '.' :: printPad (decExp q)
              (q.num.natAbs * 10 ^ decExp q / q.den % 10 ^ decExp q))
            = printNat (q.num.natAbs * 10 ^ decExp q / q.den / 10 ^ decExp q) ++
              '.' :: printPad (decExp q)
                (q.num.natAbs * 10 ^ decExp q / q.den % 10 ^ decExp q) by
          rw [hpn]; rfl]
        rw [parseUnsignedParts_pad (by omega : 1 ≤ decExp q),
          Option.map_some', Option.some.injEq]
        exact mkRat_eq_self_nonneg hexact hq0

theorem printDate_chars {dt : Date} :
    ∀ c ∈ printDate dt, isDigitC c = true ∨ c = '-' := by
  intro c hc
  rw [printDate] at hc
  rcases List.mem_append.mp hc with h | h
  · exact Or.inl (List.all_eq_true.mp (allDigits_printPad _ _) c h)
  · rcases List.mem_cons.mp h with h2 | h2
    · exact Or.inr h2
    · rcases List.mem_append.mp h2 with h3 | h3
      · exact Or.inl (List.all_eq_true.mp (allDigits_printPad _ _) c h3)
      · rcases List.mem_cons.mp h3 with h4 | h4
        · exact Or.inr h4
        · exact Or.inl (List.all_eq_true.mp (allDigits_printPad _ _) c h4)

theorem comma_not_mem_printDate (dt : Date) : (',' : Char) ∉ printDate dt := by
  intro hm
  rcases printDate_chars ',' hm with h | h
  · exact absurd h (by decide)
  · exact absurd h (by decide)

theorem comma_not_mem_printVal (q : ℚ) : (',' : Char) ∉ printVal q := by
  intro hm
  rcases printVal_chars ',' hm with h | h | h
  · exact absurd h (by decide)
  · exact absurd h (by decide)
  · exact absurd h (by decide)

theorem newline_not_mem_rowLine (p : Point) : ('\n' : Char) ∉ rowLine p := by
  intro hm
  rw [rowLine] at hm
  rcases List.mem_append.mp hm with h | h
  · rcases printDate_chars '\n' h with h2 | h2
    · exact absurd h2 (by decide)
    · exact absurd h2 (by decide)
  · rcases List.mem_cons.mp h with h2 | h2
    · exact absurd h2 (by decide)
    · rcases printVal_chars '\n' h2 with h3 | h3 | h3
      · exact absurd h3 (by decide)
      · exact absurd h3 (by decide)
      · exact absurd h3 (by decide)

theorem rowLine_ne_nil (p : Point) : rowLine p ≠ [] := by
  rw [rowLine, printDate]
  intro h
  rcases List.append_eq_nil.mp h with ⟨h1, _⟩
  rcases List.append_eq_nil.mp h1 with ⟨h2, _⟩
  exact printPad_ne_nil 4 p.date.y h2

theorem parseDate_printDate (dt : Date) : parseDate (printDate dt) = some dt := by
  have hsplit : splitOnChar '-' (printDate dt)
      = [printPad 4 dt.y, printPad 2 dt.m, printPad 2 dt.d] := by
    rw [printDate]
    rw [splitOnChar_append _
      (show ('-' : Char) ∉ printPad 4 dt.y from
        not_mem_of_allDigits (allDigits_printPad _ _) (by decide))]
    rw [splitOnChar_append _
      (show ('-' : Char) ∉ printPad 2 dt.m from
        not_mem_of_allDigits (allDigits_printPad _ _) (by decide))]
    rw [splitOnChar_of_not_mem
      (show ('-' : Char) ∉ printPad 2 dt.d from
        not_mem_of_allDigits (allDigits_printPad _ _) (by decide))]
  rw [parseDate, hsplit]
  dsimp only
  rw [if_pos]
  · rw [valOfDigits_printPad, valOfDigits_printPad, valOfDigits_printPad]
  · rw [isEmpty_false_of_ne_nil (printPad_ne_nil _ _),
      isEmpty_false_of_ne_nil (printPad_ne_nil _ _),
      isEmpty_false_of_ne_nil (printPad_ne_nil _ _),
      allDigits_printPad, allDigits_printPad, allDigits_printPad]
    rfl

theorem splitOnChar_rowLine (p : Point) :
    splitOnChar ',' (rowLine p) = [printDate p.date, printVal p.value] := by
  rw [rowLine]
  rw [splitOnChar_append _ (comma_not_mem_printDate p.date)]
  rw [splitOnChar_of_not_mem (comma_not_mem_printVal p.value)]

theorem parseRow_rowLine {p : Point} (hv : ∃ k, p.value.den ∣ 10 ^ k) :
    parseRow 0 1 (rowLine p) = some p := by
  rw [parseRow, splitOnChar_rowLine]
  dsimp only [List.get?]
  rw [parseDate_printDate, parseVal_printVal hv]

theorem parseRows_map {t : SeriesTable}
    (h : ∀ p ∈ t, ∃ k, p.value.den ∣ 10 ^ k) :
    parseRows 0 1 (t.map rowLine) = some t := by
  induction t with
  | nil => rfl
  | cons p r ih =>
    rw [List.map_cons, parseRows]
    rw [parseRow_rowLine (h p (List.mem_cons_self p r))]
    rw [ih (fun x hx => h x (List.mem_cons_of_mem p hx))]

theorem splitOnChar_joinLines {ls : List (List Char)}
    (h : ∀ l ∈ ls, ('\n' : Char) ∉ l) :
    splitOnChar '\n' (joinLines ls) = ls ++ [[]] := by
  induction ls with
  | nil => rfl
  | cons l rest ih =>
    rw [joinLines, List.foldr_cons, ← joinLines]
    rw [splitOnChar_append _ (h l (List.mem_cons_self l rest))]
    rw [ih (fun x hx => h x (List.mem_cons_of_mem l hx))]
    rfl

theorem csvLines_toDelimitedText (t : SeriesTable) :
    csvLines (toDelimitedText t) = headerLine :: t.map rowLine := by
  rw [csvLines, toDelimitedText]
  rw [splitOnChar_joinLines ?hnl]
  case hnl =>
    intro l hl
    rcases List.mem_cons.mp hl with h | h
    · rw [h]; decide
    · obtain ⟨p, _, hpe⟩ := List.mem_map.mp h
      rw [← hpe]
      exact newline_not_mem_rowLine p
  rw [List.filter_append]
  rw [List.filter_cons_of_pos (by decide)]
  rw [show List.filter (fun l => !l.isEmpty) [[]] = ([] : List (List Char)) from rfl]
  rw [List.append_nil]
  congr 1
  apply List.filter_eq_self.mpr
  intro l hl
  obtain ⟨p, _, hpe⟩ := List.mem_map.mp hl
  rw [← hpe, isEmpty_false_of_ne_nil (rowLine_ne_nil p)]
  rfl

theorem parseFile_toDelimitedText {t : SeriesTable}
    (h : ∀ p ∈ t, ∃ k, p.value.den ∣ 10 ^ k) :
    parseFile (toDelimitedText t) = Except.ok t := by
  rw [parseFile, csvLines_toDelimitedText]
  dsimp only
  rw [show splitOnChar ',' headerLine = [dateColName, uvColName] from by decide]
  rw [if_pos (by decide)]
  rw [show ([dateColName, uvColName].findIdx (fun c => c == dateColName)) = 0
    from by decide]
  rw [show ([dateColName, uvColName].findIdx (fun c => c == uvColName)) = 1
    from by decide]
  rw [parseRows_map h]

theorem parseAll_decimal {toks : List (List Char)} {vs : List ℚ}
    (h : parseAll toks = some vs) : ∀ v ∈ vs, ∃ k, v.den ∣ 10 ^ k := by
  induction toks generalizing vs with
  | nil =>
    rw [parseAll, Option.some.injEq] at h
    rw [← h]
    intro v hv
    simp at hv
  | cons tok rest ih =>
    rw [parseAll] at h
    cases hvk : parseVal tok with
    | none => rw [hvk] at h; exact absurd h (by simp)
    | some v0 =>
      rw [hvk] at h
      cases hr : parseAll rest with
      | none => rw [hr] at h; exact absurd h (by simp)
      | some ws =>
        rw [hr, Option.some.injEq] at h
        rw [← h]
        intro v hv
        rcases List.mem_cons.mp hv with he | hm
        · exact he ▸ parseVal_den_dvd hvk
        · exact ih hr v hm

theorem mem_zipWith_value {ds : List Date} {vs : List ℚ} {p : Point}
    (h : p ∈ List.zipWith (fun dt v => Point.mk dt v) ds vs) : p.value ∈ vs := by
  induction ds generalizing vs with
  | nil => simp at h
  | cons d dr ih =>
    cases vs with
    | nil => simp at h
    | cons v vr =>
      rw [List.zipWith_cons_cons] at h
      rcases List.mem_cons.mp h with he | hm
      · rw [he]
        exact List.mem_cons_self v vr
      · exact List.mem_cons_of_mem v (ih hm)

theorem parseManual_decimal {s : List Char} {t : SeriesTable}
    (h : parseManual s = some t) : ∀ p ∈ t, ∃ k, p.value.den ∣ 10 ^ k := by
  rw [parseManual] at h
  by_cases he : s.isEmpty
  · rw [if_pos he] at h
    exact absurd h (by simp)
  · rw [if_neg he] at h
    cases hv : parseAll (splitOnChar ',' s) with
    | none => rw [hv] at h; exact absurd h (by simp)
    | some vs =>
      rw [hv, Option.some.injEq] at h
      intro p hp
      rw [← h] at hp
      exact parseAll_decimal hv p.value (mem_zipWith_value hp)

theorem parseRow_decimal {di ui : ℕ} {row : List Char} {p : Point}
    (h : parseRow di ui row = some p) : ∃ k, p.value.den ∣ 10 ^ k := by
  rw [parseRow] at h
  split at h
  · split at h
    · next dt v hd hv =>
      rw [Option.some.injEq] at h
      rw [← h]
      exact parseVal_den_dvd hv
    · exact absurd h (by simp)
  · exact absurd h (by simp)

theorem parseRows_decimal {di ui : ℕ} {rows : List (List Char)} {ps : List Point}
    (h : parseRows di ui rows = some ps) : ∀ p ∈ ps, ∃ k, p.value.den ∣ 10 ^ k := by
  induction rows generalizing ps with
  | nil =>
    rw [parseRows, Option.some.injEq] at h
    rw [← h]
    intro p hp
    simp at hp
  | cons row rest ih =>
    rw [parseRows] at h
    cases hrw : parseRow di ui row with
    | none => rw [hrw] at h; exact absurd h (by simp)
    | some p0 =>
      rw [hrw] at h
      cases hrs : parseRows di ui rest with
      | none => rw [hrs] at h; exact absurd h (by simp)
      | some ps0 =>
        rw [hrs, Option.some.injEq] at h
        rw [← h]
        intro p hp
        rcases List.mem_cons.mp hp with he | hm
        · exact he ▸ parseRow_decimal hrw
        · exact ih hrs p hm

theorem parseFile_decimal {cs : List Char} {t : SeriesTable}
    (h : parseFile cs = Except.ok t) : ∀ p ∈ t, ∃ k, p.value.den ∣ 10 ^ k := by
  rw [parseFile] at h
  split at h
  · exact absurd h (by simp)
  · dsimp only at h
    split at h
    · split at h
      · next ps hps =>
        rw [Except.ok.injEq] at h
        rw [← h]
        exact parseRows_decimal hps
      · exact absurd h (by simp)
    · exact absurd h (by simp)

/-- C3: re-parsing the exported delimited text reproduces the table, for
every table produced by parseManual or by parseFile: the export emits the
header row Date,UV Index followed by one comma-separated row per point with
no index column, and parseFile reads it back to an equal table. -/
theorem C3_roundTrip :
    (∀ (s : List Char) (t : SeriesTable), parseManual s = some t →
      parseFile (toDelimitedText t) = Except.ok t) ∧
    (∀ (cs : List Char) (t : SeriesTable), parseFile cs = Except.ok t →
      parseFile (toDelimitedText t) = Except.ok t) :=
  ⟨fun _ t hpm => parseFile_toDelimitedText (parseManual_decimal hpm),
   fun _ t hpf => parseFile_toDelimitedText (parseFile_decimal hpf)⟩

/-- Witness for C3 at the sample input of app.py line 48. -/
theorem C3_roundTrip_witness :
    parseFile (toDelimitedText sampleTable) = Except.ok sampleTable :=
  C3_roundTrip.1 sampleInput sampleTable (by decide)
